import Mathlib

/-!
Verification of the pychain wrapper library (OutSquareCapital/pychain).

This file shallowly embeds the pipeline machinery of the repository:
  * `pyPipe` — `fn.pipe(value, *funcs)`, applying recorded steps in order;
  * the `(value, pipeline)` wrapper design of `Iter` (part_013) and
    `Struct` (`src/pychain/_struct/_mod.pyx`), whose `_do` appends a step to
    the receiver's own pipeline list and returns the receiver;
  * the immutable `BaseExpr`/`Op` design of `src/pychain/_mod.pyx`, whose
    `_do` builds a fresh object wrapping `f ∘ old_pipeline`;
  * the mutating `ChainableOp._do` of `src/pychain/_exprs/_mod.pyx`, which
    overwrites `self._pipeline` with the composition and returns `self`;
  * Python-`dict` association-list semantics (`dictSet` = item assignment /
    `cytoolz.assoc`, `dictUpdate` = `dict.update`, `dcMerge` =
    `cytoolz.merge`), the `_repeat` / `_zip_with` / `_flatten_recursive`
    helper functions of `src/pychain/_mod.pyx`, and the `key(...)`/`Expr`
    field-expression sublanguage.
Mutation of a wrapper in place is made observable by an explicit heap
(`List` of wrapper states addressed by position), mirroring Python's
object store for exactly the methods whose frame behavior is at issue.
-/

/-- `fn.pipe`/`cytoolz.functoolz.pipe`: apply the recorded pipeline steps to
`x` in order (first appended step first). -/
def pyPipe (x : α) (fs : List (α → α)) : α :=
  fs.foldl (fun a f => f a) x

/-! ## Python dict as an insertion-ordered association list -/

/-- A Python `dict`, modelled as an insertion-ordered association list.
Well-formed dicts have pairwise distinct keys (`(dictKeys d).Nodup`). -/
abbrev PyDict (κ ν : Type) := List (κ × ν)

/-- `d[k]` lookup, `None` when absent (first match; a well-formed dict has at
most one). -/
def dictGet [DecidableEq κ] : PyDict κ ν → κ → Option ν
  | [], _ => none
  | (k', v) :: rest, k => if k' = k then some v else dictGet rest k

/-- `list(d.keys())` in insertion order. -/
def dictKeys (d : PyDict κ ν) : List κ :=
  d.map (fun p => p.1)

/-- `d[k] = v` (also `cytoolz.assoc` on a copy): overwrite in place if the key
is present, keeping its position, else append at the end — Python dict
insertion-order semantics. -/
def dictSet [DecidableEq κ] : PyDict κ ν → κ → ν → PyDict κ ν
  | [], k, v => [(k, v)]
  | (k', v') :: rest, k, v =>
      if k' = k then (k', v) :: rest else (k', v') :: dictSet rest k v

/-- `d.update(e)`: set every binding of `e` into `d`, in `e`'s order. -/
def dictUpdate [DecidableEq κ] (d e : PyDict κ ν) : PyDict κ ν :=
  e.foldl (fun acc p => dictSet acc p.1 p.2) d

/-- `_merge(on, others) = cytoolz.merge(on, *others)`: copy the first dict and
update it with each later dict in turn, so later dicts win on collision. -/
def dcMerge [DecidableEq κ] (d : PyDict κ ν) (others : List (PyDict κ ν)) :
    PyDict κ ν :=
  others.foldl dictUpdate d

/-! ## The `(value, pipeline)` wrapper design (`Iter` of part_013,
`Struct` of `_struct/_mod.pyx`) -/

/-- State of a `Struct` wrapper (`_struct/_mod.pyx`): the mapping it was
constructed from plus the list of pending pipeline steps. -/
structure StructSt (κ ν : Type) where
  value : PyDict κ ν
  pipeline : List (PyDict κ ν → PyDict κ ν)

/-- `Struct.__init__(value)`: pipeline defaults to `[]`. -/
def mkStruct (m : PyDict κ ν) : StructSt κ ν :=
  ⟨m, []⟩

/-- `Struct._do(f)`: append `f` to the receiver's own `_pipeline` (the
receiver is mutated and returned; aliasing is modelled by the heap below). -/
def structDo (f : PyDict κ ν → PyDict κ ν) (st : StructSt κ ν) : StructSt κ ν :=
  ⟨st.value, st.pipeline ++ [f]⟩

/-- `Struct.unwrap()`: return the stored value itself when no step is pending,
else pipe the value through the pipeline. -/
def structUnwrap (st : StructSt κ ν) : PyDict κ ν :=
  match st.pipeline with
  | [] => st.value
  | fs => pyPipe st.value fs

/-- `Struct.with_key(key, value)`: `_do` of the `assoc` step. -/
def structWithKey [DecidableEq κ] (k : κ) (v : ν) (st : StructSt κ ν) :
    StructSt κ ν :=
  structDo (fun d => dictSet d k v) st

/-- `Struct.merge(*others)`: `_do` of the `_merge` step. -/
def structMerge [DecidableEq κ] (others : List (PyDict κ ν))
    (st : StructSt κ ν) : StructSt κ ν :=
  structDo (fun d => dcMerge d others) st

/-- State of an `Iter` wrapper (part_013): realized source plus pending
steps. -/
structure IterSt (α : Type) where
  value : List α
  pipeline : List (List α → List α)

/-- `Iter.__init__(value)`: pipeline defaults to `[]`. -/
def mkIter (xs : List α) : IterSt α :=
  ⟨xs, []⟩

/-- `Iter._do(f)`: append a step to the receiver's own `_pipeline`. -/
def iterDo (f : List α → List α) (st : IterSt α) : IterSt α :=
  ⟨st.value, st.pipeline ++ [f]⟩

/-- `Iter.unwrap()`: the stored value when no step is pending, else the piped
value. -/
def iterUnwrap (st : IterSt α) : List α :=
  match st.pipeline with
  | [] => st.value
  | fs => pyPipe st.value fs

/-- `Iter.to_list() = list(self.unwrap())` on a same-element-type pipeline. -/
def iterToList (st : IterSt α) : List α :=
  iterUnwrap st

/-- `Iter.filter(f) = self._do(partial(filter, f))`: Python's lazy `filter`
builtin on a finite iterable keeps, in order, the elements satisfying `f`. -/
def iterFilter (p : α → Bool) (st : IterSt α) : IterSt α :=
  iterDo (fun l => l.filter p) st

/-- The result of `Iter._into(f)` after an element-type-changing step: a fresh
wrapper over the same source whose single pipeline entry is
`fn.compose(*old_pipeline, f)`. -/
structure IterMapped (α β : Type) where
  value : List α
  run : List α → List β

/-- `Iter.map(f) = self._into(partial(map, f))`: fresh wrapper composing the
old pipeline with Python's `map` builtin. -/
def iterMap (f : α → β) (st : IterSt α) : IterMapped α β :=
  ⟨st.value, fun l => (pyPipe l st.pipeline).map f⟩

/-- `Iter.to_list()` on a mapped wrapper: its composed (nonempty) pipeline
applied to the source, materialized as a list. -/
def iterMappedToList (st : IterMapped α β) : List β :=
  st.run st.value

/-- The list comprehension `[f(x) for x in xs if p(x)]`, written by direct
recursion as the specification side of claim C1. -/
def listComp (f : α → β) (p : α → Bool) : List α → List β
  | [] => []
  | x :: xs => if p x then f x :: listComp f p xs else listComp f p xs

/-! ## The immutable expression builder (`Op` / `BaseExpr` of `_mod.pyx`) -/

/-- An `Op` of `src/pychain/_mod.pyx`: a `BaseExpr` holding one composed
pipeline function. -/
structure OpW (α β : Type) where
  pipeline : α → β

/-- `op() = OpConstructor.__call__ = Op(ftz.identity)`. -/
def opIdentity : OpW α α :=
  ⟨id⟩

/-- `BaseExpr.__call__(value) = self._pipeline(value)`. -/
def opCall (st : OpW α β) (v : α) : β :=
  st.pipeline v

/-- `BaseExpr._do(f)`: a fresh `Op` whose pipeline is
`value ↦ f(self._pipeline(value))`. -/
def opDo (st : OpW α β) (f : β → γ) : OpW α γ :=
  ⟨fun v => f (st.pipeline v)⟩

/-- `Op.gt(value) = self._do(partial(operator.lt, value))`: the bound constant
is the left operand of `operator.lt`, the chain's running value the right. -/
def opGt [LinearOrder β] (c : β) (st : OpW α β) : OpW α Bool :=
  opDo st (fun x => decide (c < x))

/-- `Op.ge(value) = self._do(partial(operator.le, value))`. -/
def opGe [LinearOrder β] (c : β) (st : OpW α β) : OpW α Bool :=
  opDo st (fun x => decide (c ≤ x))

/-- `Op.lt(value) = self._do(partial(operator.gt, value))`. -/
def opLt [LinearOrder β] (c : β) (st : OpW α β) : OpW α Bool :=
  opDo st (fun x => decide (c > x))

/-- `Op.le(value) = self._do(partial(operator.ge, value))`. -/
def opLe [LinearOrder β] (c : β) (st : OpW α β) : OpW α Bool :=
  opDo st (fun x => decide (c ≥ x))

/-! ## `_repeat` and `_zip_with` steps (`src/pychain/_mod.pyx`) -/

/-- `_repeat(value, n) = itertools-style concat(map(lambda x: [x] * n, value))`:
each element gives a run of `n` copies, and the runs are concatenated flat. -/
def pyRepeatStep (n : Nat) (xs : List α) : List α :=
  (xs.map (fun x => List.replicate n x)).flatten

/-- `Iter.repeat(n) = self._do(partial(_repeat, n=n))`. -/
def iterRepeat (n : Nat) (st : IterSt α) : IterSt α :=
  iterDo (pyRepeatStep n) st

/-- `zip(value, other, strict=strict)` materialized on finite lists: pairs in
lockstep; on exhaustion of one side, strict zipping raises (modelled as
`Except.error` with CPython's message) while non-strict zipping stops. -/
def pyZip2 (strict : Bool) : List α → List β → Except String (List (α × β))
  | [], [] => .ok []
  | [], _ :: _ =>
      if strict then .error "zip() argument 2 is longer than argument 1"
      else .ok []
  | _ :: _, [] =>
      if strict then .error "zip() argument 2 is shorter than argument 1"
      else .ok []
  | a :: as, b :: bs =>
      match pyZip2 strict as bs with
      | .ok r => .ok ((a, b) :: r)
      | .error e => .error e

/-- The result of `Iter.zip_with(other, strict) = self._into(zip step)`: a
fresh wrapper whose composed pipeline ends in the zip; consuming it can
raise. -/
structure IterZipped (α β : Type) where
  value : List α
  run : List α → Except String (List (α × β))

/-- `Iter.zip_with(other, strict=...)` against one other iterable. -/
def iterZipWith (strict : Bool) (ys : List β) (st : IterSt α) :
    IterZipped α β :=
  ⟨st.value, fun l => pyZip2 strict (pyPipe l st.pipeline) ys⟩

/-- `to_list()` on a zipped pipeline: materializes, surfacing the strictness
error (if any) at consumption time. -/
def iterZippedToList (st : IterZipped α β) : Except String (List (α × β)) :=
  st.run st.value

/-! ## Theorems -/

theorem listComp_eq_map_filter (f : α → β) (p : α → Bool) (xs : List α) :
    listComp f p xs = (xs.filter p).map f := by
  induction xs with
  | nil => rfl
  | cons x xs ih =>
      by_cases h : p x <;> simp [listComp, List.filter_cons, h, ih]

/-- C1: `Iter(xs).filter(p).map(f).to_list()` equals the list comprehension
`[f(x) for x in xs if p(x)]`: filter keeps exactly the elements satisfying
`p` in order and map applies `f` to each survivor in order. -/
theorem claim1_filter_map_to_list (xs : List α) (p : α → Bool) (f : α → β) :
    iterMappedToList (iterMap f (iterFilter p (mkIter xs))) = listComp f p xs := by
  rw [listComp_eq_map_filter]
  rfl

/-- C9: a wrapper freshly constructed from a payload, with no chained steps,
unwraps to exactly the stored payload: both `Struct.unwrap` and `Iter.unwrap`
return the `_value` field itself when the pipeline is empty. -/
theorem claim9_unwrap_identity (m : PyDict κ ν) (xs : List α) :
    structUnwrap (mkStruct m) = m ∧ iterUnwrap (mkIter xs) = xs :=
  ⟨rfl, rfl⟩

/-- C4: despite the internal operand reversal (`gt` is built from
`partial(operator.lt, value)` and so on), the comparison builders observe the
documented outward semantics: `op().gt(c)(v)` iff `v > c`, `ge` iff `v ≥ c`,
`lt` iff `v < c`, `le` iff `v ≤ c`. -/
theorem claim4_comparison_semantics [LinearOrder α] (c v : α) :
    (opCall (opGt c opIdentity) v = true ↔ v > c)
    ∧ (opCall (opGe c opIdentity) v = true ↔ v ≥ c)
    ∧ (opCall (opLt c opIdentity) v = true ↔ v < c)
    ∧ (opCall (opLe c opIdentity) v = true ↔ v ≤ c) := by
  refine ⟨?_, ?_, ?_, ?_⟩ <;>
    simp [opCall, opGt, opGe, opLt, opLe, opDo, opIdentity]

theorem pyZip2_false_eq_zip (xs : List α) (ys : List β) :
    pyZip2 false xs ys = .ok (xs.zip ys) := by
  induction xs generalizing ys with
  | nil => cases ys <;> rfl
  | cons a as ih =>
      cases ys with
      | nil => rfl
      | cons b bs => simp [pyZip2, ih]

theorem pyZip2_true_error (xs : List α) (ys : List β)
    (h : xs.length ≠ ys.length) :
    ∃ e, pyZip2 true xs ys = .error e := by
  induction xs generalizing ys with
  | nil =>
      cases ys with
      | nil => simp at h
      | cons b bs => exact ⟨_, rfl⟩
  | cons a as ih =>
      cases ys with
      | nil => exact ⟨_, rfl⟩
      | cons b bs =>
          simp only [List.length_cons, Ne, Nat.add_right_cancel_iff] at h
          obtain ⟨e, he⟩ := ih bs h
          exact ⟨e, by simp [pyZip2, he]⟩

/-- C6: zipping two finite iterables of different lengths with `strict=True`
raises a length-mismatch error when the pipeline is consumed, while with
`strict=False` (the default) the result is truncated to the shorter
operand. -/
theorem claim6_zip_strictness (xs : List α) (ys : List β)
    (h : xs.length ≠ ys.length) :
    (∃ e, iterZippedToList (iterZipWith true ys (mkIter xs)) = .error e)
    ∧ iterZippedToList (iterZipWith false ys (mkIter xs)) = .ok (xs.zip ys)
    ∧ (xs.zip ys).length = min xs.length ys.length := by
  refine ⟨?_, ?_, by simp⟩
  · simpa [iterZippedToList, iterZipWith, mkIter, pyPipe] using
      pyZip2_true_error xs ys h
  · simpa [iterZippedToList, iterZipWith, mkIter, pyPipe] using
      pyZip2_false_eq_zip xs ys

/-- C6 witness: `Iter([1,2]).zip([1,2,3], strict=True)` raises, and with
`strict=False` the result truncates to `[1,2].zip([1,2,3]) = [(1,1),(2,2)]`. -/
theorem claim6_zip_strictness_witness :
    ([1, 2] : List Int).length ≠ ([1, 2, 3] : List Int).length
    ∧ ((∃ e, iterZippedToList
          (iterZipWith true ([1, 2, 3] : List Int)
            (mkIter ([1, 2] : List Int))) = .error e)
       ∧ iterZippedToList
          (iterZipWith false ([1, 2, 3] : List Int)
            (mkIter ([1, 2] : List Int)))
          = .ok (([1, 2] : List Int).zip ([1, 2, 3] : List Int))
       ∧ ((([1, 2] : List Int).zip ([1, 2, 3] : List Int)).length
          = min ([1, 2] : List Int).length ([1, 2, 3] : List Int).length)) :=
  ⟨by decide,
   claim6_zip_strictness ([1, 2] : List Int) ([1, 2, 3] : List Int) (by decide)⟩

/-- An untyped Python value that can be either an integer or a list, so that
a flat sequence of numbers and a sequence-of-sequences are comparable values
of one type (Python is dynamically typed). -/
inductive PyV where
  | i : Int → PyV
  | l : List PyV → PyV

/-- Each element of `xs` repeated `n` times consecutively, in one flat
sequence — the specification side of the amended claim C7, written by direct
recursion. -/
def eachRepeated (n : Nat) : List α → List α
  | [] => []
  | x :: xs => List.replicate n x ++ eachRepeated n xs

/-- C7 counterexample: `Iter([1, 2]).repeat(2).to_list()` is the flat sequence
`[1, 1, 2, 2]` — each individual element repeated in place — and not the
sequence-of-sequences `[[1, 2], [1, 2]]` the claim predicts. -/
theorem claim7_repeat_counterexample :
    iterToList (iterRepeat 2 (mkIter [PyV.i 1, PyV.i 2]))
      = [PyV.i 1, PyV.i 1, PyV.i 2, PyV.i 2]
    ∧ iterToList (iterRepeat 2 (mkIter [PyV.i 1, PyV.i 2]))
      ≠ [PyV.l [PyV.i 1, PyV.i 2], PyV.l [PyV.i 1, PyV.i 2]] :=
  ⟨rfl, by simp [iterToList, iterRepeat, iterDo, mkIter, iterUnwrap, pyPipe,
    pyRepeatStep]⟩

/-- C7 (amended): for every finite iterable `xs` and every `n ≥ 0`,
`Iter(xs).repeat(n)` yields each individual element of `xs` repeated `n`
times in place, as one flat sequence (e.g. `[1,2]` with `n = 2` gives
`[1,1,2,2]`), not the whole sequence repeated as a sequence-of-sequences. -/
theorem claim7_repeat_amended (n : Nat) (xs : List α) :
    iterToList (iterRepeat n (mkIter xs)) = eachRepeated n xs := by
  have : pyRepeatStep n xs = eachRepeated n xs := by
    induction xs with
    | nil => rfl
    | cons x xs ih => simp [pyRepeatStep, eachRepeated] at ih ⊢ ; exact ih
  simpa [iterToList, iterRepeat, iterDo, mkIter, iterUnwrap, pyPipe]

/-! ## Explicit object heap for the mutating wrapper designs -/

/-- Read the object stored at address `a` of a heap (a positional list of
object states), with a default for out-of-range addresses. -/
def heapGet (dflt : τ) : List τ → Nat → τ
  | [], _ => dflt
  | x :: _, 0 => x
  | _ :: rest, n + 1 => heapGet dflt rest n

theorem heapGet_set_eq (dflt x : τ) (l : List τ) (a : Nat)
    (h : a < l.length) : heapGet dflt (l.set a x) a = x := by
  induction l generalizing a with
  | nil => simp at h
  | cons hd tl ih =>
      cases a with
      | zero => rfl
      | succ a => exact ih a (by simpa using h)

theorem heapGet_set_ne (dflt x : τ) (l : List τ) (a b : Nat) (h : b ≠ a) :
    heapGet dflt (l.set a x) b = heapGet dflt l b := by
  induction l generalizing a b with
  | nil => rfl
  | cons hd tl ih =>
      cases a with
      | zero =>
          cases b with
          | zero => exact absurd rfl h
          | succ b => rfl
      | succ a =>
          cases b with
          | zero => rfl
          | succ b => exact ih a b (fun hba => h (by rw [hba]))

theorem heapGet_append_length (dflt x : τ) (l : List τ) :
    heapGet dflt (l ++ [x]) l.length = x := by
  induction l with
  | nil => rfl
  | cons hd tl ih => exact ih

theorem heapGet_append_lt (dflt x : τ) (l : List τ) (b : Nat)
    (h : b < l.length) : heapGet dflt (l ++ [x]) b = heapGet dflt l b := by
  induction l generalizing b with
  | nil => simp at h
  | cons hd tl ih =>
      cases b with
      | zero => rfl
      | succ b => exact ih b (by simpa using h)

/-- `Struct.with_key` called on the wrapper at address `a`: `_do` appends the
step to that very object's `_pipeline` and returns `self`, so the result is
the same address together with the updated heap. -/
def structHeapWithKey [DecidableEq κ] (a : Nat) (k : κ) (v : ν)
    (heap : List (StructSt κ ν)) : Nat × List (StructSt κ ν) :=
  (a, heap.set a (structWithKey k v (heapGet (mkStruct []) heap a)))

theorem structUnwrap_structDo (f : PyDict κ ν → PyDict κ ν)
    (st : StructSt κ ν) : structUnwrap (structDo f st) = f (structUnwrap st) := by
  cases st with
  | mk v pl =>
      cases pl with
      | nil => rfl
      | cons g gs => simp [structDo, structUnwrap, pyPipe, List.foldl_append]

/-- C2 counterexample: for `d = Struct({"a": 1})`, the call
`d2 = d.with_key("b", 2)` returns the very wrapper it was called on (same
heap address, because `_do` appends to `self._pipeline` and returns `self`),
and afterwards that shared wrapper — which `d` still names — unwraps to
`{"a": 1, "b": 2}`, not to the original `{"a": 1}`. -/
theorem claim2_with_key_counterexample :
    (structHeapWithKey 0 "b" 2 [mkStruct [("a", (1 : Int))]]).1 = 0
    ∧ structUnwrap
        (heapGet (mkStruct [])
          (structHeapWithKey 0 "b" 2 [mkStruct [("a", (1 : Int))]]).2 0)
        = [("a", 1), ("b", 2)]
    ∧ structUnwrap
        (heapGet (mkStruct [])
          (structHeapWithKey 0 "b" 2 [mkStruct [("a", (1 : Int))]]).2 0)
        ≠ [("a", (1 : Int))] :=
  ⟨rfl, rfl, by decide⟩

/-- C2 (amended): `with_key(k, v)` appends the `assoc` step to the wrapper's
own pipeline and returns the same wrapper object, so the receiver and the
result alias and both now unwrap to the previous unwrap result extended (or
overwritten) with `k: v`; the mapping stored at construction is itself never
mutated, and no other wrapper on the heap is touched. -/
theorem claim2_with_key_amended [DecidableEq κ] (heap : List (StructSt κ ν))
    (a : Nat) (k : κ) (v : ν) (h : a < heap.length) :
    (structHeapWithKey a k v heap).1 = a
    ∧ (heapGet (mkStruct []) (structHeapWithKey a k v heap).2 a).value
        = (heapGet (mkStruct []) heap a).value
    ∧ structUnwrap (heapGet (mkStruct []) (structHeapWithKey a k v heap).2 a)
        = dictSet (structUnwrap (heapGet (mkStruct []) heap a)) k v
    ∧ ∀ b, b ≠ a →
        heapGet (mkStruct []) (structHeapWithKey a k v heap).2 b
          = heapGet (mkStruct []) heap b := by
  refine ⟨rfl, ?_, ?_, ?_⟩
  · rw [structHeapWithKey, heapGet_set_eq _ _ _ _ h]
    rfl
  · rw [structHeapWithKey, heapGet_set_eq _ _ _ _ h]
    exact structUnwrap_structDo _ _
  · intro b hb
    exact heapGet_set_ne _ _ _ _ _ hb

/-- C2 witness: the amended statement applied to the one-object heap
`[Struct({"a": 1})]`. -/
theorem claim2_with_key_amended_witness :
    (0 : Nat) < ([mkStruct [("a", (1 : Int))]] : List (StructSt String Int)).length
    ∧ ((structHeapWithKey 0 "b" 2 [mkStruct [("a", (1 : Int))]]).1 = 0
       ∧ (heapGet (mkStruct [])
            (structHeapWithKey 0 "b" 2 [mkStruct [("a", (1 : Int))]]).2 0).value
           = (heapGet (mkStruct []) [mkStruct [("a", (1 : Int))]] 0).value
       ∧ structUnwrap
            (heapGet (mkStruct [])
              (structHeapWithKey 0 "b" 2 [mkStruct [("a", (1 : Int))]]).2 0)
           = dictSet
              (structUnwrap (heapGet (mkStruct []) [mkStruct [("a", (1 : Int))]] 0))
              "b" 2
       ∧ ∀ b, b ≠ 0 →
           heapGet (mkStruct [])
              (structHeapWithKey 0 "b" 2 [mkStruct [("a", (1 : Int))]]).2 b
             = heapGet (mkStruct []) [mkStruct [("a", (1 : Int))]] b) :=
  ⟨by decide,
   claim2_with_key_amended [mkStruct [("a", (1 : Int))]] 0 "b" 2 (by decide)⟩

/-! ## The mutating `ChainableOp` (`_exprs/_mod.pyx`) next to the immutable
`Op` (`_mod.pyx`), both on an explicit heap of pipeline functions -/

/-- A heap of expression-builder objects; each object's state is its composed
`_pipeline` function (`ChainableOp.__init__` starts at `fn.identity`). -/
abbrev OpHeap := List (Int → Int)

/-- `fn.compose(self._pipeline, f)` with the chain's documented outward
order: the old pipeline runs first, the new step `f` last. -/
def opCompose (g f : Int → Int) : Int → Int :=
  fun v => f (g v)

/-- `ChainableOp._do(f)`: overwrite `self._pipeline` with the composition and
return `self` — the same address with its heap entry replaced. -/
def chainOpDo (a : Nat) (f : Int → Int) (heap : OpHeap) : Nat × OpHeap :=
  (a, heap.set a (opCompose (heapGet id heap a) f))

/-- `BaseExpr._do(f)` of `_mod.pyx`: build a fresh object whose pipeline
closes over the receiver's pipeline — a new address appended to the heap,
with every existing entry untouched. -/
def baseOpDo (a : Nat) (f : Int → Int) (heap : OpHeap) : Nat × OpHeap :=
  (heap.length, heap ++ [opCompose (heapGet id heap a) f])

/-- `add(value)`'s step `partial(operator.add, value) = λ x. value + x`. -/
def opAddStep (c : Int) : Int → Int :=
  fun x => c + x

/-- C3 counterexample: on a heap holding the single fresh `ChainableOp`
(`op()`, identity pipeline), `.add(1)` returns the very same object — the
same address, not a new `Op` — and the original now maps `5` to `6` where it
mapped `5` to `5` before the chaining call. -/
theorem claim3_op_chaining_counterexample :
    (chainOpDo 0 (opAddStep 1) [id]).1 = 0
    ∧ heapGet id (chainOpDo 0 (opAddStep 1) [id]).2 0 5 = 6
    ∧ heapGet id ([id] : OpHeap) 0 5 = 5 :=
  ⟨rfl, rfl, rfl⟩

/-- C3 (amended): the `BaseExpr`-based `Op` of `_mod.pyx` behaves as claimed —
each chaining call yields a fresh `Op` whose pipeline is the new step
composed after the old pipeline, with every pre-existing `Op` unchanged —
whereas the `ChainableOp` of `_exprs/_mod.pyx` composes in place: the call
returns the same object, whose pipeline becomes the new step after the old
pipeline, so the original `Op`'s previous behavior is not preserved. -/
theorem claim3_op_chaining_amended (heap : OpHeap) (a : Nat) (f : Int → Int)
    (h : a < heap.length) :
    (baseOpDo a f heap).1 = heap.length
    ∧ (∀ v, heapGet id (baseOpDo a f heap).2 heap.length v
        = f (heapGet id heap a v))
    ∧ (∀ b, b < heap.length →
        heapGet id (baseOpDo a f heap).2 b = heapGet id heap b)
    ∧ (chainOpDo a f heap).1 = a
    ∧ (∀ v, heapGet id (chainOpDo a f heap).2 a v = f (heapGet id heap a v)) := by
  refine ⟨rfl, ?_, ?_, rfl, ?_⟩
  · intro v
    rw [baseOpDo, heapGet_append_length]
    rfl
  · intro b hb
    exact heapGet_append_lt _ _ _ _ hb
  · intro v
    rw [chainOpDo, heapGet_set_eq _ _ _ _ h]
    rfl

/-- C3 witness: the amended statement applied to the one-object heap holding
a fresh identity pipeline, chained with `.add(1)`. -/
theorem claim3_op_chaining_amended_witness :
    (0 : Nat) < ([id] : OpHeap).length
    ∧ ((baseOpDo 0 (opAddStep 1) [id]).1 = ([id] : OpHeap).length
       ∧ (∀ v, heapGet id (baseOpDo 0 (opAddStep 1) [id]).2
            ([id] : OpHeap).length v = opAddStep 1 (heapGet id [id] 0 v))
       ∧ (∀ b, b < ([id] : OpHeap).length →
            heapGet id (baseOpDo 0 (opAddStep 1) [id]).2 b = heapGet id [id] b)
       ∧ (chainOpDo 0 (opAddStep 1) [id]).1 = 0
       ∧ (∀ v, heapGet id (chainOpDo 0 (opAddStep 1) [id]).2 0 v
            = opAddStep 1 (heapGet id [id] 0 v))) :=
  ⟨by decide, claim3_op_chaining_amended [id] 0 (opAddStep 1) (by decide)⟩

/-! ## Dict lookup lemmas and claim C5 -/

/-- First-some choice on options (`a if a is not None else b`). -/
def optOr : Option ν → Option ν → Option ν
  | some v, _ => some v
  | none, b => b

/-- Lookup of the LAST binding of `k` in an association list (the binding a
left-to-right sequence of Python dict assignments would leave in force). -/
def dictGetLast [DecidableEq κ] : PyDict κ ν → κ → Option ν
  | [], _ => none
  | (k', v) :: rest, k =>
      match dictGetLast rest k with
      | some w => some w
      | none => if k' = k then some v else none

theorem dictGet_dictSet [DecidableEq κ] (d : PyDict κ ν) (k q : κ) (v : ν) :
    dictGet (dictSet d k v) q = if k = q then some v else dictGet d q := by
  induction d with
  | nil => simp [dictGet, dictSet]
  | cons p rest ih =>
      obtain ⟨k', v'⟩ := p
      by_cases h1 : k' = k
      · subst h1
        by_cases h2 : k' = q <;> simp [dictGet, dictSet, h2]
      · by_cases h2 : k' = q
        · subst h2
          have : ¬ k = k' := fun hk => h1 hk.symm
          simp [dictGet, dictSet, h1, this]
        · simp [dictGet, dictSet, h1, h2, ih]

theorem mem_dictKeys_dictSet [DecidableEq κ] (d : PyDict κ ν) (k q : κ)
    (v : ν) : q ∈ dictKeys (dictSet d k v) ↔ q ∈ dictKeys d ∨ q = k := by
  induction d with
  | nil => simp [dictKeys, dictSet]
  | cons p rest ih =>
      obtain ⟨k', v'⟩ := p
      by_cases h1 : k' = k
      · subst h1
        simp [dictKeys, dictSet]
        tauto
      · simp only [dictSet, if_neg h1, dictKeys, List.map_cons, List.mem_cons]
        rw [show (List.map (fun p => p.1) (dictSet rest k v))
              = dictKeys (dictSet rest k v) from rfl]
        rw [ih]
        simp [dictKeys]
        tauto

theorem dictGet_dictUpdate [DecidableEq κ] (e d : PyDict κ ν) (k : κ) :
    dictGet (dictUpdate d e) k = optOr (dictGetLast e k) (dictGet d k) := by
  induction e generalizing d with
  | nil => rfl
  | cons p rest ih =>
      obtain ⟨k0, v0⟩ := p
      have step : dictUpdate d ((k0, v0) :: rest)
          = dictUpdate (dictSet d k0 v0) rest := rfl
      rw [step, ih]
      cases hl : dictGetLast rest k with
      | some w => simp [dictGetLast, hl, optOr]
      | none =>
          by_cases h0 : k0 = k <;>
            simp [dictGetLast, hl, optOr, dictGet_dictSet, h0]

theorem dictGet_eq_none_of_not_mem [DecidableEq κ] (d : PyDict κ ν) (k : κ)
    (h : k ∉ dictKeys d) : dictGet d k = none := by
  induction d with
  | nil => rfl
  | cons p rest ih =>
      obtain ⟨k', v'⟩ := p
      simp only [dictKeys, List.map_cons, List.mem_cons] at h
      push_neg at h
      have : k' ≠ k := fun hk => h.1 hk.symm
      simpa [dictGet, this] using ih (by simpa [dictKeys] using h.2)

theorem dictGetLast_eq_dictGet [DecidableEq κ] (e : PyDict κ ν) (k : κ)
    (he : (dictKeys e).Nodup) : dictGetLast e k = dictGet e k := by
  induction e with
  | nil => rfl
  | cons p rest ih =>
      obtain ⟨k0, v0⟩ := p
      simp only [dictKeys, List.map_cons, List.nodup_cons] at he
      have hrest := ih (by simpa [dictKeys] using he.2)
      by_cases h0 : k0 = k
      · subst h0
        have : dictGet rest k0 = none :=
          dictGet_eq_none_of_not_mem rest k0 (by simpa [dictKeys] using he.1)
        simp [dictGetLast, dictGet, hrest, this]
      · cases hg : dictGet rest k <;>
          simp [dictGetLast, dictGet, hrest, h0, hg]

theorem mem_dictKeys_dictUpdate [DecidableEq κ] (e d : PyDict κ ν) (k : κ) :
    k ∈ dictKeys (dictUpdate d e) ↔ k ∈ dictKeys d ∨ k ∈ dictKeys e := by
  induction e generalizing d with
  | nil => simp [dictUpdate, dictKeys]
  | cons p rest ih =>
      obtain ⟨k0, v0⟩ := p
      have step : dictUpdate d ((k0, v0) :: rest)
          = dictUpdate (dictSet d k0 v0) rest := rfl
      rw [step, ih, mem_dictKeys_dictSet]
      simp [dictKeys]
      tauto

theorem structUnwrap_structMerge [DecidableEq κ] (d : PyDict κ ν)
    (others : List (PyDict κ ν)) :
    structUnwrap (structMerge others (mkStruct d)) = dcMerge d others :=
  structUnwrap_structDo _ _

/-- C5: `Dict(d).merge(e).unwrap()` contains every key of `d` and of `e`; on
a key collision the value from the later argument `e` wins (lookup is `e`'s
binding when present, else `d`'s); and with several others, later dict
arguments take precedence over earlier ones and over self: merging with
`others + [e]` is the merge with `others` then updated by `e`. -/
theorem claim5_merge_precedence [DecidableEq κ] (d e : PyDict κ ν)
    (others : List (PyDict κ ν)) (he : (dictKeys e).Nodup) :
    (∀ k, k ∈ dictKeys d ∨ k ∈ dictKeys e →
        k ∈ dictKeys (structUnwrap (structMerge [e] (mkStruct d))))
    ∧ (∀ k, dictGet (structUnwrap (structMerge [e] (mkStruct d))) k
        = optOr (dictGet e k) (dictGet d k))
    ∧ structUnwrap (structMerge (others ++ [e]) (mkStruct d))
        = dictUpdate (structUnwrap (structMerge others (mkStruct d))) e := by
  refine ⟨?_, ?_, ?_⟩
  · intro k hk
    rw [structUnwrap_structMerge]
    show k ∈ dictKeys (dictUpdate d e)
    rw [mem_dictKeys_dictUpdate]
    exact hk
  · intro k
    rw [structUnwrap_structMerge]
    show dictGet (dictUpdate d e) k = optOr (dictGet e k) (dictGet d k)
    rw [dictGet_dictUpdate, dictGetLast_eq_dictGet e k he]
  · rw [structUnwrap_structMerge, structUnwrap_structMerge]
    show dcMerge d (others ++ [e]) = dictUpdate (dcMerge d others) e
    simp [dcMerge, List.foldl_append]

/-- C5 witness: `Dict({1: 2, 3: 4}).merge({3: 3, 4: 4})` — key coverage,
later-wins lookup, and precedence, at the spec's own example. -/
theorem claim5_merge_precedence_witness :
    (dictKeys ([(3, 3), (4, 4)] : PyDict Int Int)).Nodup
    ∧ ((∀ k, k ∈ dictKeys ([(1, 2), (3, 4)] : PyDict Int Int)
          ∨ k ∈ dictKeys ([(3, 3), (4, 4)] : PyDict Int Int) →
            k ∈ dictKeys (structUnwrap
              (structMerge [[(3, 3), (4, 4)]] (mkStruct [(1, 2), (3, 4)]))))
       ∧ (∀ k, dictGet (structUnwrap
              (structMerge [[(3, 3), (4, 4)]] (mkStruct [(1, 2), (3, 4)]))) k
            = optOr (dictGet ([(3, 3), (4, 4)] : PyDict Int Int) k)
                (dictGet ([(1, 2), (3, 4)] : PyDict Int Int) k))
       ∧ structUnwrap (structMerge ([] ++ [[(3, 3), (4, 4)]])
              (mkStruct [(1, 2), (3, 4)]))
          = dictUpdate (structUnwrap
              (structMerge [] (mkStruct ([(1, 2), (3, 4)] : PyDict Int Int))))
              [(3, 3), (4, 4)]) :=
  ⟨by decide,
   claim5_merge_precedence [(1, 2), (3, 4)] [(3, 3), (4, 4)] [] (by decide)⟩

/-! ## Nested dict values and `flatten_keys` (`_flatten_recursive`) -/

/-- A nested Python value stored under a string key: either a non-mapping
leaf or a nested mapping (`hasattr(v, "items")`). -/
inductive NVal (α : Type) where
  | leaf : α → NVal α
  | dict : List (String × NVal α) → NVal α

/-- `new_key = parent_key + sep + k if parent_key else k`. -/
def joinKey (parent sep k : String) : String :=
  if parent = "" then k else parent ++ sep ++ k

/-- The loop body of `_flatten_recursive(d, parent_key, sep)`: iterate the
entries of `d` in order, carrying the `items` dict; a mapping value is
recursively flattened (with a fresh `items`) and `items.update`d in, a leaf
is assigned at the joined key. -/
def flatAux : String → String → List (String × NVal α) → PyDict String α →
    PyDict String α
  | _, _, [], items => items
  | parent, sep, (k, NVal.leaf a) :: rest, items =>
      flatAux parent sep rest (dictSet items (joinKey parent sep k) a)
  | parent, sep, (k, NVal.dict d) :: rest, items =>
      flatAux parent sep rest
        (dictUpdate items (flatAux (joinKey parent sep k) sep d []))

/-- `Struct.flatten_keys()`'s transformation,
`_flatten_recursive(d, parent_key="", sep=".")`. -/
def flattenKeys (d : List (String × NVal α)) : PyDict String α :=
  flatAux "" "." d []

/-- Re-read a flat dict (no mapping values) as input to the flattener. -/
def liftFlat (l : PyDict String α) : List (String × NVal α) :=
  l.map (fun p => (p.1, NVal.leaf p.2))

theorem dictSet_eq_append [DecidableEq κ] (d : PyDict κ ν) (k : κ) (v : ν)
    (h : k ∉ dictKeys d) : dictSet d k v = d ++ [(k, v)] := by
  induction d with
  | nil => rfl
  | cons p rest ih =>
      obtain ⟨k', v'⟩ := p
      simp only [dictKeys, List.map_cons, List.mem_cons] at h
      push_neg at h
      have : k' ≠ k := fun hk => h.1 hk.symm
      simp [dictSet, this, ih (by simpa [dictKeys] using h.2)]

theorem dictUpdate_eq_append [DecidableEq κ] (d e : PyDict κ ν)
    (he : (dictKeys e).Nodup) (hdisj : ∀ k ∈ dictKeys e, k ∉ dictKeys d) :
    dictUpdate d e = d ++ e := by
  induction e generalizing d with
  | nil => simp [dictUpdate]
  | cons p rest ih =>
      obtain ⟨k0, v0⟩ := p
      simp only [dictKeys, List.map_cons, List.nodup_cons] at he
      have hk0 : k0 ∉ dictKeys d := hdisj k0 (by simp [dictKeys])
      have step : dictUpdate d ((k0, v0) :: rest)
          = dictUpdate (dictSet d k0 v0) rest := rfl
      have hdisj2 : ∀ k ∈ dictKeys rest, k ∉ dictKeys (d ++ [(k0, v0)]) := by
        intro k hk
        rw [show dictKeys (d ++ [(k0, v0)]) = dictKeys d ++ [k0] by
          simp [dictKeys]]
        simp only [List.mem_append, List.mem_singleton]
        push_neg
        have hmem2 : k ∈ dictKeys ((k0, v0) :: rest) := by
          simp only [dictKeys, List.map_cons, List.mem_cons]
          exact Or.inr hk
        refine ⟨hdisj k hmem2, ?_⟩
        intro hkk0
        exact absurd (hkk0 ▸ hk) (by simpa [dictKeys] using he.1)
      rw [step, dictSet_eq_append d k0 v0 hk0,
        ih (d ++ [(k0, v0)]) (by simpa [dictKeys] using he.2) hdisj2]
      simp

theorem nodup_dictKeys_dictSet [DecidableEq κ] (d : PyDict κ ν) (k : κ)
    (v : ν) (h : (dictKeys d).Nodup) : (dictKeys (dictSet d k v)).Nodup := by
  induction d with
  | nil => simp [dictSet, dictKeys]
  | cons p rest ih =>
      obtain ⟨k', v'⟩ := p
      simp only [dictKeys, List.map_cons, List.nodup_cons] at h
      by_cases hk : k' = k
      · subst hk
        simpa [dictSet, dictKeys] using h
      · simp only [dictSet, if_neg hk, dictKeys, List.map_cons,
          List.nodup_cons]
        refine ⟨?_, ih (by simpa [dictKeys] using h.2)⟩
        intro hmem
        rcases (mem_dictKeys_dictSet rest k k' v).mp
            (by simpa [dictKeys] using hmem) with h1 | h1
        · exact absurd h1 (by simpa [dictKeys] using h.1)
        · exact hk h1

theorem nodup_dictKeys_dictUpdate [DecidableEq κ] (e d : PyDict κ ν)
    (h : (dictKeys d).Nodup) : (dictKeys (dictUpdate d e)).Nodup := by
  induction e generalizing d with
  | nil => exact h
  | cons p rest ih =>
      obtain ⟨k0, v0⟩ := p
      exact ih (dictSet d k0 v0) (nodup_dictKeys_dictSet d k0 v0 h)

theorem nodup_dictKeys_flatAux (parent sep : String)
    (d : List (String × NVal α)) (items : PyDict String α)
    (h : (dictKeys items).Nodup) :
    (dictKeys (flatAux parent sep d items)).Nodup := by
  induction d generalizing parent items with
  | nil => simpa [flatAux] using h
  | cons p rest ih =>
      obtain ⟨k, v⟩ := p
      cases v with
      | leaf a =>
          rw [flatAux]
          exact ih parent _ (nodup_dictKeys_dictSet items _ a h)
      | dict d' =>
          rw [flatAux]
          exact ih parent _ (nodup_dictKeys_dictUpdate _ items h)

theorem flatAux_liftFlat_root (sep : String) (l : PyDict String α)
    (items : PyDict String α) :
    flatAux "" sep (liftFlat l) items = dictUpdate items l := by
  induction l generalizing items with
  | nil => simp [flatAux, liftFlat, dictUpdate]
  | cons p rest ih =>
      obtain ⟨k, v⟩ := p
      rw [show liftFlat ((k, v) :: rest) = (k, NVal.leaf v) :: liftFlat rest
        from rfl]
      rw [flatAux]
      rw [show joinKey "" sep k = k by simp [joinKey]]
      rw [show dictUpdate items ((k, v) :: rest)
          = dictUpdate (dictSet items k v) rest from rfl]
      exact ih (dictSet items k v)

/-- C10: the flatten-keys transformation is the identity on a dict with no
mapping values (given the distinct keys a real Python dict guarantees), and
it is idempotent: flattening a flattened dict changes nothing. -/
theorem claim10_flatten_keys (d : List (String × NVal α))
    (l : PyDict String α) (hl : (dictKeys l).Nodup) :
    flattenKeys (liftFlat l) = l
    ∧ flattenKeys (liftFlat (flattenKeys d)) = flattenKeys d := by
  have ident : ∀ (m : PyDict String α), (dictKeys m).Nodup →
      flattenKeys (liftFlat m) = m := by
    intro m hm
    rw [flattenKeys, flatAux_liftFlat_root]
    rw [dictUpdate_eq_append [] m hm (by simp [dictKeys])]
    simp
  refine ⟨ident l hl, ident (flattenKeys d) ?_⟩
  exact nodup_dictKeys_flatAux "" "." d [] (by simp [dictKeys])

/-- C10 witness: identity on the flat `{"a": 1, "b": 2}` and idempotence over
the nested `{"user": {"age": 30}}`. -/
theorem claim10_flatten_keys_witness :
    (dictKeys ([("a", 1), ("b", 2)] : PyDict String Int)).Nodup
    ∧ (flattenKeys (liftFlat ([("a", 1), ("b", 2)] : PyDict String Int))
        = [("a", 1), ("b", 2)]
       ∧ flattenKeys (liftFlat (flattenKeys
            [("user", NVal.dict [("age", NVal.leaf (30 : Int))])]))
        = flattenKeys [("user", NVal.dict [("age", NVal.leaf (30 : Int))])]) :=
  ⟨by decide,
   claim10_flatten_keys [("user", NVal.dict [("age", NVal.leaf (30 : Int))])]
     [("a", 1), ("b", 2)] (by decide)⟩

/-! ## The `key(...)`/`Expr` field-expression sublanguage and `Dict.select` -/

/-- Modelled from the spec: the `Expr` field-expression AST of
`Dict.select`/`Dict.with_fields` — its implementation is absent from the
source tree (only docs and callers show it). An ordered list of path
segments, an optional trailing transform, and an optional output alias. -/
structure FieldExpr (α : Type) where
  path : List String
  transform : Option (NVal α → NVal α)
  outAlias : Option String

/-- Modelled from the spec: `key(name)` starts an expression addressing the
top-level field `name`. -/
def key (name : String) : FieldExpr α :=
  ⟨[name], none, none⟩

/-- Modelled from the spec: chained `.key(name)` extends the path one level
deeper. -/
def FieldExpr.key (e : FieldExpr α) (name : String) : FieldExpr α :=
  { e with path := e.path ++ [name] }

/-- Modelled from the spec: `.apply(func)` wraps the projected leaf in a
transform. -/
def FieldExpr.apply (e : FieldExpr α) (f : NVal α → NVal α) : FieldExpr α :=
  { e with transform := some f }

/-- Modelled from the spec: `.alias(name)` renames the projected output
field. -/
def FieldExpr.alias (e : FieldExpr α) (name : String) : FieldExpr α :=
  { e with outAlias := some name }

/-- Modelled from the spec: the expression's resolved output name — the alias
when given, else the last path segment's key name. -/
def resolvedName (e : FieldExpr α) : String :=
  match e.outAlias with
  | some n => n
  | none => e.path.getLastD ""

/-- Modelled from the spec: walk the path segments by successive lookups
starting from the root mapping; absent keys or descent into a non-mapping
value fail. -/
def lookupPath : List String → NVal α → Option (NVal α)
  | [], v => some v
  | k :: ks, NVal.dict d =>
      match dictGet d k with
      | some v => lookupPath ks v
      | none => none
  | _ :: _, NVal.leaf _ => none

/-- Modelled from the spec: evaluate one expression against the source dict —
walk the path, then apply the transform if present. -/
def evalExpr (e : FieldExpr α) (d : List (String × NVal α)) : Option (NVal α) :=
  match lookupPath e.path (NVal.dict d) with
  | some v =>
      some (match e.transform with
            | some f => f v
            | none => v)
  | none => none

/-- Modelled from the spec: evaluate each expression in order, yielding its
`(resolved name, value)` pair; a failing lookup fails the whole batch. -/
def computeExprs (exprs : List (FieldExpr α)) (d : List (String × NVal α)) :
    Option (List (String × NVal α)) :=
  match exprs with
  | [] => some []
  | e :: rest =>
      match evalExpr e d, computeExprs rest d with
      | some v, some prs => some ((resolvedName e, v) :: prs)
      | _, _ => none

/-- Modelled from the spec: `Dict.select(*exprs)` collects the computed
pairs into a brand-new mapping (fields not referenced by any expression are
dropped). -/
def selectExprs (exprs : List (FieldExpr α)) (d : List (String × NVal α)) :
    Option (PyDict String (NVal α)) :=
  match computeExprs exprs d with
  | some prs => some (prs.foldl (fun m p => dictSet m p.1 p.2) [])
  | none => none

theorem computeExprs_spec (exprs : List (FieldExpr α))
    (d : List (String × NVal α))
    (hall : ∀ e ∈ exprs, (evalExpr e d).isSome = true)
    (hnames : (exprs.map resolvedName).Nodup) :
    ∃ prs, computeExprs exprs d = some prs
      ∧ dictKeys prs = exprs.map resolvedName
      ∧ ∀ e ∈ exprs, dictGet prs (resolvedName e) = evalExpr e d := by
  induction exprs with
  | nil => exact ⟨[], rfl, rfl, by simp⟩
  | cons e0 rest ih =>
      have h0 : (evalExpr e0 d).isSome = true := hall e0 (by simp)
      obtain ⟨v0, hv0⟩ := Option.isSome_iff_exists.mp h0
      simp only [List.map_cons, List.nodup_cons] at hnames
      obtain ⟨prs, hprs, hkeys, hget⟩ :=
        ih (fun e he => hall e (by simp [he])) hnames.2
      refine ⟨(resolvedName e0, v0) :: prs, ?_, ?_, ?_⟩
      · simp [computeExprs, hv0, hprs]
      · simp only [dictKeys, List.map_cons]
        rw [show List.map (fun p => p.1) prs = dictKeys prs from rfl, hkeys]
      · intro e he
        rcases List.mem_cons.mp he with rfl | hmem
        · simp [dictGet, hv0]
        · have hne : resolvedName e0 ≠ resolvedName e := by
            intro hEq
            exact hnames.1 (hEq ▸ List.mem_map_of_mem resolvedName hmem)
          simp [dictGet, hne, hget e hmem]

/-- C8: when every field expression's path resolves and the resolved output
names are distinct, `Dict.select(*exprs)` returns a new flat dict whose keys
are, in order, the expressions' resolved output names and whose values are
the projected (and transformed) values; fields not referenced by any
expression are dropped. -/
theorem claim8_select_exprs (exprs : List (FieldExpr α))
    (d : List (String × NVal α))
    (hall : ∀ e ∈ exprs, (evalExpr e d).isSome = true)
    (hnames : (exprs.map resolvedName).Nodup) :
    ∃ m, selectExprs exprs d = some m
      ∧ dictKeys m = exprs.map resolvedName
      ∧ ∀ e ∈ exprs, dictGet m (resolvedName e) = evalExpr e d := by
  obtain ⟨prs, hprs, hkeys, hget⟩ := computeExprs_spec exprs d hall hnames
  have hnodup : (dictKeys prs).Nodup := by
    rw [hkeys]
    exact hnames
  have hfold : prs.foldl (fun m p => dictSet m p.1 p.2) [] = prs := by
    have h := dictUpdate_eq_append ([] : PyDict String (NVal α)) prs hnodup
      (by simp [dictKeys])
    simpa [dictUpdate] using h
  refine ⟨prs, ?_, hkeys, hget⟩
  simp [selectExprs, hprs, hfold]

/-- C8 witness: `Dict({"user": {"age": 30}}).select(key("user").key("age")
.alias("age")).unwrap() == {"age": 30}`, via the theorem applied to that
single expression. -/
theorem claim8_select_exprs_witness :
    (∀ e ∈ [FieldExpr.alias (FieldExpr.key (key "user") "age") "age"],
        (evalExpr e [("user", NVal.dict [("age", NVal.leaf (30 : Int))])]).isSome
          = true)
    ∧ (([FieldExpr.alias (FieldExpr.key (key "user") "age") "age"].map
          (resolvedName (α := Int))).Nodup)
    ∧ (∃ m, selectExprs [FieldExpr.alias (FieldExpr.key (key "user") "age") "age"]
          [("user", NVal.dict [("age", NVal.leaf (30 : Int))])] = some m
        ∧ dictKeys m
            = [FieldExpr.alias (FieldExpr.key (key "user") "age") "age"].map
                (resolvedName (α := Int))
        ∧ ∀ e ∈ [FieldExpr.alias (FieldExpr.key (key "user") "age") "age"],
            dictGet m (resolvedName e)
              = evalExpr e [("user", NVal.dict [("age", NVal.leaf (30 : Int))])])
    ∧ selectExprs [FieldExpr.alias (FieldExpr.key (key "user") "age") "age"]
        [("user", NVal.dict [("age", NVal.leaf (30 : Int))])]
        = some [("age", NVal.leaf 30)] :=
  ⟨by decide, by decide,
   claim8_select_exprs [FieldExpr.alias (FieldExpr.key (key "user") "age") "age"]
     [("user", NVal.dict [("age", NVal.leaf (30 : Int))])] (by decide) (by decide),
   rfl⟩

/-- C4 witness: the comparison semantics at the concrete bound `3` and value
`5` over the integers. -/
theorem claim4_comparison_semantics_witness :
    (opCall (opGt (3 : Int) opIdentity) 5 = true ↔ (5 : Int) > 3)
    ∧ (opCall (opGe (3 : Int) opIdentity) 5 = true ↔ (5 : Int) ≥ 3)
    ∧ (opCall (opLt (3 : Int) opIdentity) 5 = true ↔ (5 : Int) < 3)
    ∧ (opCall (opLe (3 : Int) opIdentity) 5 = true ↔ (5 : Int) ≤ 3) :=
  claim4_comparison_semantics 3 5
